import Mathlib

/-!
# Verification of the rand generation-and-sampling engine

Shallow embedding, in Lean 4, of the parts of the `rand` repository that the
specification's claims are about:

* `WeightedChoice` (cumulative-weight discrete sampling),
  from `src/distributions/mod.rs`;
* `XorShiftRng` seeding (`from_seed` / `from_rng`), from `src/prng/xorshift.rs`;
* the `ziggurat` sampling loop, from `src/distributions/mod.rs`;
* the ChaCha block function `refill4`, from `rand_chacha/src/guts.rs`.

Machine integers are modelled as `Nat` with explicit reduction modulo `2^32`
(resp. `2^64`) exactly where the Rust code wraps or casts; fallible paths
(panics, error returns) are modelled with `Option`.  `f64` arithmetic in the
ziggurat sampler is modelled by exact rational arithmetic (`ℚ`): the claims
about it concern the control flow of the algorithm, not rounding behaviour.
-/

namespace RandVerify

/-! ## Machine-integer helpers -/

/-- The modulus of `u32` arithmetic. -/
def U32MOD : Nat := 2 ^ 32

/-- The modulus of `u64` arithmetic. -/
def U64MOD : Nat := 2 ^ 64

/-! ## WeightedChoice: construction (`WeightedChoice::new`)

`WeightedChoice::new` walks the item list once, replacing each weight by the
running total computed with `u32::checked_add`, and panics on overflow, on an
empty list and on a zero total.  Items are modelled by their weights only (the
paired item of index `i` is implicitly the item stored at position `i`; the
construction keeps positions, which the length/prefix-sum lemmas make
explicit). -/

/-- Model of `u32::checked_add`: `some` of the sum when it fits in a `u32`. -/
def checkedAdd (a b : Nat) : Option Nat :=
  if a + b < U32MOD then some (a + b) else none

/-- The cumulative-sum loop of `WeightedChoice::new`: starting from running
total `r`, replace each weight by the running total, failing if a
`checked_add` overflows.  Returns the cumulative list and the final total. -/
def cumsum (r : Nat) : List Nat → Option (List Nat × Nat)
  | [] => some ([], r)
  | w :: ws =>
    match checkedAdd r w with
    | none => none
    | some n =>
      match cumsum n ws with
      | none => none
      | some (cs, total) => some (n :: cs, total)

/-- Pure cumulative sums (no overflow check), for stating what `cumsum`
computes when it succeeds. -/
def csums (r : Nat) : List Nat → List Nat
  | [] => []
  | w :: ws => (r + w) :: csums (r + w) ws

/-- Model of `WeightedChoice::new` on the list of weights: `none` models a panic
(empty input, zero total, or `u32` overflow of the running total), `some`
returns the cumulative-weight table together with the total. -/
def wcNew (ws : List Nat) : Option (List Nat × Nat) :=
  if ws.isEmpty then none
  else
    match cumsum 0 ws with
    | none => none
    | some (cs, total) => if total = 0 then none else some (cs, total)

/-! ### Lemmas about the cumulative sums -/

theorem cumsum_eq_none_iff (ws : List Nat) :
    ∀ r, r < U32MOD → (cumsum r ws = none ↔ U32MOD ≤ r + ws.sum) := by
  induction ws with
  | nil =>
    intro r hr
    simp only [cumsum, List.sum_nil, Nat.add_zero]
    constructor
    · intro h; cases h
    · intro h; omega
  | cons w ws ih =>
    intro r hr
    simp only [cumsum, checkedAdd, List.sum_cons]
    by_cases hrw : r + w < U32MOD
    · simp only [if_pos hrw]
      have := ih (r + w) hrw
      constructor
      · intro h
        rcases hcw : cumsum (r + w) ws with _ | ⟨cs, total⟩
        · have := this.mp hcw; omega
        · rw [hcw] at h; simp at h
      · intro h
        have hnone : cumsum (r + w) ws = none := this.mpr (by omega)
        rw [hnone]
    · simp only [if_neg hrw]
      constructor
      · intro _; omega
      · intro _; trivial

theorem cumsum_eq_some (ws : List Nat) :
    ∀ r, r + ws.sum < U32MOD → cumsum r ws = some (csums r ws, r + ws.sum) := by
  induction ws with
  | nil => intro r _; simp [cumsum, csums]
  | cons w ws ih =>
    intro r h
    simp only [List.sum_cons] at h
    have hrw : r + w < U32MOD := by omega
    simp only [cumsum, checkedAdd, if_pos hrw, csums]
    rw [ih (r + w) (by omega)]
    simp [Nat.add_assoc]

theorem csums_length (ws : List Nat) : ∀ r, (csums r ws).length = ws.length := by
  induction ws with
  | nil => intro r; rfl
  | cons w ws ih => intro r; simp [csums, ih]

theorem sum_take_mono (ws : List Nat) {m n : Nat} (h : m ≤ n) :
    (ws.take m).sum ≤ (ws.take n).sum := by
  have : ws.take n = ws.take m ++ (ws.drop m).take (n - m) := by
    rw [← List.take_add]
    congr 1
    omega
  rw [this, List.sum_append]
  omega

theorem csums_getD (ws : List Nat) :
    ∀ r i, i < ws.length → (csums r ws).getD i 0 = r + (ws.take (i + 1)).sum := by
  induction ws with
  | nil => intro r i h; simp at h
  | cons w ws ih =>
    intro r i h
    cases i with
    | zero => simp [csums]
    | succ i =>
      simp only [csums, List.getD_cons_succ, List.take_succ_cons, List.sum_cons]
      rw [ih (r + w) i (by simpa using h)]
      omega

theorem csums_mono (ws : List Nat) (r : Nat) {i j : Nat} (hij : i ≤ j)
    (hj : j < (csums r ws).length) :
    (csums r ws).getD i 0 ≤ (csums r ws).getD j 0 := by
  rw [csums_length] at hj
  rw [csums_getD ws r i (by omega), csums_getD ws r j hj]
  have := sum_take_mono ws (show i + 1 ≤ j + 1 by omega)
  omega

theorem csums_last (ws : List Nat) (hne : ws ≠ []) (r : Nat) :
    (csums r ws).getD (ws.length - 1) 0 = r + ws.sum := by
  have hlen : 0 < ws.length := List.length_pos.mpr hne
  rw [csums_getD ws r (ws.length - 1) (by omega)]
  have : ws.length - 1 + 1 = ws.length := by omega
  rw [this, List.take_length]

/-- Destructing a successful `wcNew`: the input is non-empty, the table is the
list of cumulative sums, the total is the sum, it is positive, and it fits in
a `u32`. -/
theorem wcNew_some (ws : List Nat) (cs : List Nat) (total : Nat)
    (h : wcNew ws = some (cs, total)) :
    ws ≠ [] ∧ cs = csums 0 ws ∧ total = ws.sum ∧ 0 < total ∧ ws.sum < U32MOD := by
  unfold wcNew at h
  by_cases hne : ws.isEmpty
  · rw [if_pos hne] at h; cases h
  · rw [if_neg hne] at h
    have hne2 : ws ≠ [] := by
      intro hnil; rw [hnil] at hne; simp at hne
    have h0 : (0 : Nat) < U32MOD := by norm_num [U32MOD]
    by_cases hov : U32MOD ≤ 0 + ws.sum
    · have := (cumsum_eq_none_iff ws 0 h0).mpr hov
      rw [this] at h; cases h
    · push_neg at hov
      rw [cumsum_eq_some ws 0 (by omega)] at h
      simp only [Nat.zero_add] at h
      by_cases ht : ws.sum = 0
      · rw [if_pos ht] at h; cases h
      · rw [if_neg ht] at h
        refine ⟨hne2, ?_, ?_, ?_, by omega⟩ <;> cases h <;> first | rfl | omega

/-! ## WeightedChoice: sampling (`WeightedChoice::sample`)

`sample` draws `sample_weight` uniformly in `[0, total)` (via `Range`, §4.5 of
the spec); the drawn value is a parameter `s` here, constrained by `s < total`
in the theorems.  If `s` is below the first cumulative weight the method
returns item 0; otherwise a binary search (`idx`/`modifier` loop, with the
half-width rounded *up* via `modifier += 1; modifier /= 2` when descending
right) finds the last index whose cumulative weight is `≤ s` and the item at
the next index is returned.

The `while modifier > 1` loop is embedded with an explicit fuel argument; the
fuel strictly exceeds the number of iterations whenever it is at least the
initial `modifier` (each iteration at least halves `modifier`), so `wcLoop`
below — which passes `modifier` itself as fuel — computes exactly the loop of
the source. -/

/-- One step of the `sample` binary search per unit of fuel: from the source,
`i = idx + modifier / 2`; descend right (allowing `i` itself) when
`items[i].weight <= sample_weight`, rounding the new half-width up, otherwise
keep `idx` and halve. -/
def wcLoopF (cs : List Nat) (s : Nat) : Nat → Nat → Nat → Nat
  | 0, idx, _ => idx
  | fuel + 1, idx, modifier =>
    if 1 < modifier then
      if cs.getD (idx + modifier / 2) 0 ≤ s then
        wcLoopF cs s fuel (idx + modifier / 2) ((modifier + 1) / 2)
      else
        wcLoopF cs s fuel idx (modifier / 2)
    else idx

/-- The `sample` binary-search loop, started with fuel `modifier` (sufficient:
see `wcLoopF`). -/
def wcLoop (cs : List Nat) (s idx modifier : Nat) : Nat :=
  wcLoopF cs s modifier idx modifier

/-- The index of the item returned by `WeightedChoice::sample` when the drawn
value is `s`: item 0 on the short-circuit, otherwise `idx + 1` after the
binary search started at `idx = 0`, `modifier = items.len()`. -/
def wcSampleIndex (cs : List Nat) (s : Nat) : Nat :=
  if s < cs.getD 0 0 then 0 else wcLoop cs s 0 cs.length + 1

/-- The positions of the element accesses `WeightedChoice::sample` performs,
in order: `items[0]` for the short-circuit test, every `items[i]` probed by
the loop, and the final `items[idx + 1]`. -/
def wcLoopAccF (cs : List Nat) (s : Nat) : Nat → Nat → Nat → List Nat
  | 0, _, _ => []
  | fuel + 1, idx, modifier =>
    if 1 < modifier then
      if cs.getD (idx + modifier / 2) 0 ≤ s then
        (idx + modifier / 2) :: wcLoopAccF cs s fuel (idx + modifier / 2) ((modifier + 1) / 2)
      else
        (idx + modifier / 2) :: wcLoopAccF cs s fuel idx (modifier / 2)
    else []

/-- All accesses of a `sample` call with drawn value `s`. -/
def wcSampleAcc (cs : List Nat) (s : Nat) : List Nat :=
  0 :: (if s < cs.getD 0 0 then []
        else wcLoopAccF cs s cs.length 0 cs.length ++ [wcLoop cs s 0 cs.length + 1])

/-- Invariant of the binary-search loop: if `cs` is monotone on `[0, n)`,
`idx + modifier ≤ n`, `cs[idx] ≤ s` and everything from `idx + modifier` on
exceeds `s`, then the loop lands on the last index whose value is `≤ s`. -/
theorem wcLoopF_spec (cs : List Nat) (s : Nat)
    (mono : ∀ i j, i ≤ j → j < cs.length → cs.getD i 0 ≤ cs.getD j 0) :
    ∀ fuel modifier idx, modifier ≤ fuel → 1 ≤ modifier →
      idx + modifier ≤ cs.length →
      cs.getD idx 0 ≤ s →
      (∀ j, idx + modifier ≤ j → j < cs.length → s < cs.getD j 0) →
      idx ≤ wcLoopF cs s fuel idx modifier ∧
      wcLoopF cs s fuel idx modifier + 1 ≤ cs.length ∧
      cs.getD (wcLoopF cs s fuel idx modifier) 0 ≤ s ∧
      (∀ j, wcLoopF cs s fuel idx modifier + 1 ≤ j → j < cs.length →
        s < cs.getD j 0) := by
  intro fuel
  induction fuel with
  | zero => intro modifier idx hf h1 _ _ _; omega
  | succ fuel ih =>
    intro modifier idx hf h1 hbound hle hgt
    by_cases hm : 1 < modifier
    · simp only [wcLoopF, if_pos hm]
      by_cases hprobe : cs.getD (idx + modifier / 2) 0 ≤ s
      · simp only [if_pos hprobe]
        have h := ih ((modifier + 1) / 2) (idx + modifier / 2)
          (by omega) (by omega) (by omega) hprobe
          (fun j hj hjn => hgt j (by omega) hjn)
        exact ⟨by omega, h.2.1, h.2.2.1, h.2.2.2⟩
      · simp only [if_neg hprobe]
        refine ih (modifier / 2) idx (by omega) (by omega) (by omega) hle ?_
        intro j hj hjn
        by_cases hcase : idx + modifier ≤ j
        · exact hgt j hcase hjn
        · have : cs.getD (idx + modifier / 2) 0 ≤ cs.getD j 0 :=
            mono (idx + modifier / 2) j (by omega) hjn
          omega
    · simp only [wcLoopF, if_neg hm]
      exact ⟨Nat.le_refl idx, by omega, hle, fun j hj hjn => hgt j (by omega) hjn⟩

/-- The loop probes only in-bounds positions whenever `idx + modifier ≤ n`
(no hypotheses on `s` or the contents are needed for this). -/
theorem wcLoopAccF_bounds (cs : List Nat) (s : Nat) :
    ∀ fuel modifier idx, idx + modifier ≤ cs.length →
      ∀ a ∈ wcLoopAccF cs s fuel idx modifier, a < cs.length := by
  intro fuel
  induction fuel with
  | zero => intro modifier idx _ a ha; simp [wcLoopAccF] at ha
  | succ fuel ih =>
    intro modifier idx hbound a ha
    by_cases hm : 1 < modifier
    · simp only [wcLoopAccF, if_pos hm] at ha
      by_cases hprobe : cs.getD (idx + modifier / 2) 0 ≤ s
      · rw [if_pos hprobe] at ha
        rcases List.mem_cons.mp ha with h | h
        · omega
        · exact ih ((modifier + 1) / 2) (idx + modifier / 2) (by omega) a h
      · rw [if_neg hprobe] at ha
        rcases List.mem_cons.mp ha with h | h
        · omega
        · exact ih (modifier / 2) idx (by omega) a h
    · simp [wcLoopAccF, if_neg hm] at ha

/-- Predicate: `r` is the smallest index whose cumulative weight strictly exceeds the
drawn value `v`. -/
def IsLeastExceeding (cs : List Nat) (v r : Nat) : Prop :=
  r < cs.length ∧ v < cs.getD r 0 ∧ ∀ k, k < r → cs.getD k 0 ≤ v

/-- Shared helper: for every successfully constructed table and every drawn
value below the total, `sample` returns the item at the smallest index whose
cumulative weight strictly exceeds the drawn value. -/
theorem wcSampleIndex_least (ws cs : List Nat) (total v : Nat)
    (hn : wcNew ws = some (cs, total)) (hv : v < total) :
    IsLeastExceeding cs v (wcSampleIndex cs v) := by
  obtain ⟨hne, hcs, htot, hpos, hlt⟩ := wcNew_some ws cs total hn
  subst hcs htot
  have hlen : (csums 0 ws).length = ws.length := csums_length ws 0
  have hlenpos : 0 < ws.length := List.length_pos.mpr hne
  have hmono : ∀ i j, i ≤ j → j < (csums 0 ws).length →
      (csums 0 ws).getD i 0 ≤ (csums 0 ws).getD j 0 :=
    fun i j hij hj => csums_mono ws 0 hij hj
  have hlast : (csums 0 ws).getD (ws.length - 1) 0 = ws.sum := by
    have := csums_last ws hne 0; omega
  unfold wcSampleIndex
  by_cases h0 : v < (csums 0 ws).getD 0 0
  · rw [if_pos h0]
    exact ⟨by omega, h0, fun k hk => absurd hk (Nat.not_lt_zero k)⟩
  · rw [if_neg h0]
    push_neg at h0
    have h := wcLoopF_spec (csums 0 ws) v hmono (csums 0 ws).length
      (csums 0 ws).length 0 (Nat.le_refl _) (by omega) (by omega) h0
      (fun j hj hjn => by omega)
    set r := wcLoopF (csums 0 ws) v (csums 0 ws).length 0 (csums 0 ws).length with hr
    obtain ⟨-, hrn, hrle, hrgt⟩ := h
    have hrlast : r ≠ ws.length - 1 := by
      intro hcontra
      rw [hcontra, hlast] at hrle
      omega
    have hrn2 : r + 1 < (csums 0 ws).length := by omega
    refine ⟨?_, ?_, ?_⟩
    · simpa [wcLoop] using hrn2
    · have := hrgt (r + 1) (Nat.le_refl _) hrn2
      simpa [wcLoop] using this
    · intro k hk
      simp only [wcLoop] at hk
      have hk2 : k ≤ r := by omega
      calc (csums 0 ws).getD k 0 ≤ (csums 0 ws).getD r 0 :=
            hmono k r hk2 (by omega)
        _ ≤ v := hrle

/-- The invariants of the stored cumulative-weight table (claim C2): position
`i` holds `w_0 + ... + w_i`, positions are paired 1:1 with the items (equal
lengths, no reordering), the values are monotonically non-decreasing, and the
final element equals the total, which is strictly positive.  (In this pure
embedding `sample` is a function of the table that returns only an index, so
the table is never mutated by sampling by construction.) -/
def TableInvariants (ws cs : List Nat) (total : Nat) : Prop :=
  cs.length = ws.length ∧
  (∀ i, i < ws.length → cs.getD i 0 = (ws.take (i + 1)).sum) ∧
  (∀ i j, i ≤ j → j < cs.length → cs.getD i 0 ≤ cs.getD j 0) ∧
  cs.getD (cs.length - 1) 0 = total ∧
  0 < total

/-- Every access of a `sample` call lies within the item table. -/
def AccessesInBounds (cs : List Nat) (v : Nat) : Prop :=
  ∀ a ∈ wcSampleAcc cs v, a < cs.length

/-- C1: for every weighted-choice distribution successfully constructed, and
every drawn value `v` in `[0, total)`, `sample` returns the item at the
smallest index whose cumulative weight strictly exceeds `v` (which is index 0
exactly on the short-circuit `v < cs[0]`); the binary search rounds its
half-width up (`modifier += 1` before `modifier /= 2` in `wcLoopF`).  In
particular for weights `[0, 2, 0, 1]` (cumulative table `[0, 2, 2, 3]`,
total 3): drawn values 0 and 1 select index 1, drawn value 2 selects index 3,
and indices 0 and 2 are never selected for any drawn value in `[0, 3)`. -/
theorem wc_sample_selects_least_exceeding :
    (∀ ws cs total v, wcNew ws = some (cs, total) → v < total →
      IsLeastExceeding cs v (wcSampleIndex cs v)) ∧
    wcNew [0, 2, 0, 1] = some ([0, 2, 2, 3], 3) ∧
    wcSampleIndex [0, 2, 2, 3] 0 = 1 ∧
    wcSampleIndex [0, 2, 2, 3] 1 = 1 ∧
    wcSampleIndex [0, 2, 2, 3] 2 = 3 ∧
    (∀ v, v < 3 →
      wcSampleIndex [0, 2, 2, 3] v ≠ 0 ∧ wcSampleIndex [0, 2, 2, 3] v ≠ 2) := by
  refine ⟨wcSampleIndex_least, by decide, by decide, by decide, by decide, ?_⟩
  intro v hv
  interval_cases v <;> exact ⟨by decide, by decide⟩

/-- Witness for C1 at the concrete input of the claim: weights `[0, 2, 0, 1]`,
drawn value 2. -/
theorem wc_sample_selects_least_exceeding_witness :
    IsLeastExceeding [0, 2, 2, 3] 2 (wcSampleIndex [0, 2, 2, 3] 2) :=
  wc_sample_selects_least_exceeding.1 [0, 2, 0, 1] [0, 2, 2, 3] 3 2
    (by decide) (by decide)

/-- C2: after a successful `WeightedChoice::new`, the stored table holds the
running cumulative sums, paired 1:1 with the item positions, monotonically
non-decreasing, with final element equal to the (strictly positive) total. -/
theorem wcNew_table_invariants :
    ∀ ws cs total, wcNew ws = some (cs, total) → TableInvariants ws cs total := by
  intro ws cs total hn
  obtain ⟨hne, hcs, htot, hpos, _⟩ := wcNew_some ws cs total hn
  subst hcs htot
  have hlen : (csums 0 ws).length = ws.length := csums_length ws 0
  refine ⟨hlen, ?_, ?_, ?_, hpos⟩
  · intro i hi
    have := csums_getD ws 0 i hi
    omega
  · intro i j hij hj
    exact csums_mono ws 0 hij hj
  · rw [hlen]
    have := csums_last ws hne 0
    omega

/-- Witness for C2 at the concrete weights `[0, 2, 0, 1]`. -/
theorem wcNew_table_invariants_witness :
    TableInvariants [0, 2, 0, 1] [0, 2, 2, 3] 3 :=
  wcNew_table_invariants [0, 2, 0, 1] [0, 2, 2, 3] 3 (by decide)

/-- C3: `WeightedChoice::new` panics exactly when the input is empty, when the
total weight is zero, or when the running sum of the weights overflows `u32`
(the running total overflows at some step iff the final sum exceeds
`u32::MAX`, because the partial sums are non-decreasing); on every other
input it succeeds. -/
theorem wcNew_fails_iff :
    ∀ ws : List Nat,
      wcNew ws = none ↔ ws = [] ∨ ws.sum = 0 ∨ U32MOD ≤ ws.sum := by
  intro ws
  unfold wcNew
  by_cases hne : ws.isEmpty
  · rw [if_pos hne]
    simp only [List.isEmpty_iff] at hne
    simp [hne]
  · rw [if_neg hne]
    simp only [List.isEmpty_iff] at hne
    have h0 : (0 : Nat) < U32MOD := by norm_num [U32MOD]
    by_cases hov : U32MOD ≤ ws.sum
    · rw [(cumsum_eq_none_iff ws 0 h0).mpr (by omega)]
      simp [hov]
    · push_neg at hov
      rw [cumsum_eq_some ws 0 (by omega)]
      simp only [Nat.zero_add]
      by_cases ht : ws.sum = 0
      · simp [ht]
      · simp [ht, hne]
        omega

/-- C4: for every successfully constructed distribution and every drawn value
below the total, every element access performed by `sample` — the
short-circuit read of `items[0]`, every probe of the binary search, and the
final read of `items[idx + 1]` — is within the bounds of the item table, so
sampling never fails. -/
theorem wc_sample_accesses_in_bounds :
    ∀ ws cs total v, wcNew ws = some (cs, total) → v < total →
      AccessesInBounds cs v := by
  intro ws cs total v hn hv a ha
  have hL := wcSampleIndex_least ws cs total v hn hv
  obtain ⟨hne, hcs, -, -, -⟩ := wcNew_some ws cs total hn
  have hlen : 0 < cs.length := by
    rw [hcs, csums_length]
    exact List.length_pos.mpr hne
  rcases List.mem_cons.mp ha with rfl | h
  · exact hlen
  · by_cases h0 : v < cs.getD 0 0
    · rw [wcSampleAcc, if_pos h0] at ha
      simp at ha
      omega
    · rw [wcSampleAcc, if_neg h0] at ha
      rcases List.mem_cons.mp ha with rfl | ha2
      · exact hlen
      · rcases List.mem_append.mp ha2 with h3 | h3
        · exact wcLoopAccF_bounds cs v cs.length cs.length 0 (by omega) a h3
        · simp only [List.mem_singleton] at h3
          subst h3
          have hidx : wcSampleIndex cs v = wcLoop cs v 0 cs.length + 1 := by
            unfold wcSampleIndex
            rw [if_neg h0]
          rw [← hidx]
          exact hL.1

/-- Witness for C4 at the concrete weights `[0, 2, 0, 1]`, drawn value 2. -/
theorem wc_sample_accesses_in_bounds_witness :
    AccessesInBounds [0, 2, 2, 3] 2 :=
  wc_sample_accesses_in_bounds [0, 2, 0, 1] [0, 2, 2, 3] 3 2 (by decide) (by decide)

/-! ## XorShiftRng seeding (`src/prng/xorshift.rs`)

The state is four `u32` words `x, y, z, w`.  `from_seed` reads them from a
16-byte seed; `from_rng` draws them as four `next_u32()` calls from another
source, redrawing while the drawn tuple is `(0, 0, 0, 0)`.

The helper `le::read_u32` used by `from_seed` lives in the `rand_core` crate
of this repository, whose source is not under `src/`; it is modelled from the
spec (§6: "multi-word state is always reconstructed by reading consecutive
4-byte ... little-endian groups from the seed"). -/

/-- The four-word XorShift state. -/
structure XorShiftState where
  x : Nat
  y : Nat
  z : Nat
  w : Nat
deriving DecidableEq

/-- Modelled from the spec: `rand_core`'s `le::read_u32`, which reconstructs a
`u32` from 4 consecutive seed bytes in little-endian order (least-significant
byte first), independent of host endianness. -/
def le_read_u32 (bytes : List Nat) (off : Nat) : Nat :=
  bytes.getD off 0 + 2 ^ 8 * bytes.getD (off + 1) 0 +
    2 ^ 16 * bytes.getD (off + 2) 0 + 2 ^ 24 * bytes.getD (off + 3) 0

/-- Model of `XorShiftRng::from_seed`: panics (`none`) when every byte of the 16-byte
seed is zero, otherwise builds the state from the four little-endian 4-byte
groups at offsets 0, 4, 8 and 12. -/
def xsFromSeed (seed : List Nat) : Option XorShiftState :=
  if seed.all (· == 0) then none
  else some ⟨le_read_u32 seed 0, le_read_u32 seed 4,
             le_read_u32 seed 8, le_read_u32 seed 12⟩

/-- Model of `XorShiftRng::from_rng`, applied to the (finite prefix of the) sequence of
4-word tuples the driving source would produce: the loop breaks with `Ok` on
the first tuple different from `(0, 0, 0, 0)`.  A result of `none` means the
loop is *still redrawing* after exhausting the listed tuples — the source
code's loop has no retry bound and its only `return` is `Ok(...)`, so no
failure value can ever be produced. -/
def xsFromRng : List (Nat × Nat × Nat × Nat) → Option XorShiftState
  | [] => none
  | t :: rest =>
    if t ≠ (0, 0, 0, 0) then some ⟨t.1, t.2.1, t.2.2.1, t.2.2.2⟩
    else xsFromRng rest

/-- Model of `XorShiftRng::next_u32` (`Wrapping<u32>` shifts and xors): returns the
output word and the advanced state. -/
def xsNext (s : XorShiftState) : Nat × XorShiftState :=
  let t := Nat.xor s.x ((s.x <<< 11) % U32MOD)
  let w1 := Nat.xor (Nat.xor s.w (s.w >>> 19)) (Nat.xor t (t >>> 8))
  (w1, ⟨s.y, s.z, s.w, w1⟩)

/-- The stream of the first `n` output words of a state. -/
def xsStream (s : XorShiftState) : Nat → List Nat
  | 0 => []
  | n + 1 => (xsNext s).1 :: xsStream (xsNext s).2 n

/-- Modelled from the spec: the byte output of a word-based `RandomSource` is
its `u32` words serialized least-significant-byte-first (§4.1), so a source
whose byte output is the 16 bytes `bytes` yields, over four `next_u32()`
calls, the four consecutive little-endian groups of `bytes`. -/
def sourceWordsOfBytes (bytes : List Nat) : List (Nat × Nat × Nat × Nat) :=
  [(le_read_u32 bytes 0, le_read_u32 bytes 4,
    le_read_u32 bytes 8, le_read_u32 bytes 12)]

/-- If the four little-endian words of a 16-byte seed are all zero, every
byte of the seed is zero. -/
theorem all_bytes_zero_of_words_zero (seed : List Nat) (hlen : seed.length = 16)
    (h0 : le_read_u32 seed 0 = 0) (h4 : le_read_u32 seed 4 = 0)
    (h8 : le_read_u32 seed 8 = 0) (h12 : le_read_u32 seed 12 = 0) :
    ∀ b ∈ seed, b = 0 := by
  intro b hb
  obtain ⟨k, hk, hbk⟩ := List.mem_iff_getElem.mp hb
  have hget : seed.getD k 0 = b := by
    rw [List.getD_eq_getElem seed 0 hk, hbk]
  simp only [le_read_u32, List.getD_eq_getElem?_getD] at h0 h4 h8 h12 hget
  norm_num at h0 h4 h8 h12
  rw [hlen] at hk
  interval_cases k <;> omega

/-- C5 (counterexample): driven by a source that returns only zero words, the
`from_rng` loop is still redrawing after 100 tuples — it has neither
succeeded nor returned a failure, contradicting the claim that after a small
bounded number of retries the constructor returns a failure.  (The loop in
the source has no counter at all and its only `return` path is `Ok`.) -/
theorem xsFromRng_no_bounded_retry :
    xsFromRng (List.replicate 100 (0, 0, 0, 0)) = none := by decide

/-- C5 (amended): `from_rng` redraws from the source for as long as the drawn
4-word tuple is degenerate (all zero), with no retry bound and no failure
return; it succeeds with the first non-degenerate tuple, whenever the source
eventually produces one. -/
theorem xsFromRng_first_nondegenerate :
    ∀ (pre : List (Nat × Nat × Nat × Nat)) (t : Nat × Nat × Nat × Nat) post,
      (∀ u ∈ pre, u = (0, 0, 0, 0)) → t ≠ (0, 0, 0, 0) →
      xsFromRng (pre ++ t :: post) = some ⟨t.1, t.2.1, t.2.2.1, t.2.2.2⟩ := by
  intro pre
  induction pre with
  | nil =>
    intro t post _ ht
    simp only [List.nil_append, xsFromRng]
    rw [if_pos ht]
  | cons u pre ih =>
    intro t post hall ht
    have hu : u = (0, 0, 0, 0) := hall u (List.mem_cons_self u pre)
    simp only [List.cons_append, xsFromRng, hu]
    rw [if_neg (by simp)]
    exact ih t post (fun v hv => hall v (List.mem_cons_of_mem u hv)) ht

/-- Witness for the amended C5: one degenerate redraw, then the tuple
`(5, 6, 7, 8)` is accepted. -/
theorem xsFromRng_first_nondegenerate_witness :
    xsFromRng ([(0, 0, 0, 0)] ++ (5, 6, 7, 8) :: []) = some ⟨5, 6, 7, 8⟩ :=
  xsFromRng_first_nondegenerate [(0, 0, 0, 0)] (5, 6, 7, 8) [] (by decide) (by decide)

/-- The two construction paths agree on a seed: same resulting `Option`
state, construction succeeds, and (hence) the two output streams agree at
every length. -/
def FromPathsAgree (seed : List Nat) : Prop :=
  xsFromRng (sourceWordsOfBytes seed) = xsFromSeed seed ∧
  (xsFromSeed seed).isSome = true ∧
  ∀ n, Option.map (fun st => xsStream st n) (xsFromRng (sourceWordsOfBytes seed)) =
       Option.map (fun st => xsStream st n) (xsFromSeed seed)

/-- C6: for every 16-byte seed with a non-zero byte, `from_seed(bytes)` and
the from-source path (`from_rng` driven by a source whose byte output is
those identical bytes) construct the same state, and therefore produce
identical output streams for every stream length. -/
theorem from_seed_from_rng_agree :
    ∀ seed : List Nat, seed.length = 16 → (∀ b ∈ seed, b < 256) →
      (∃ b ∈ seed, b ≠ 0) → FromPathsAgree seed := by
  intro seed hlen _ hnz
  have hne : ¬(seed.all (fun b => b == 0) = true) := by
    simp only [List.all_eq_true, beq_iff_eq]
    push_neg
    exact hnz
  have htuple : (le_read_u32 seed 0, le_read_u32 seed 4,
      le_read_u32 seed 8, le_read_u32 seed 12) ≠
      ((0, 0, 0, 0) : Nat × Nat × Nat × Nat) := by
    intro heq
    simp only [Prod.mk.injEq] at heq
    obtain ⟨h0, h4, h8, h12⟩ := heq
    obtain ⟨b, hb, hbne⟩ := hnz
    exact hbne (all_bytes_zero_of_words_zero seed hlen h0 h4 h8 h12 b hb)
  have hfs : xsFromSeed seed = some ⟨le_read_u32 seed 0, le_read_u32 seed 4,
      le_read_u32 seed 8, le_read_u32 seed 12⟩ := by
    unfold xsFromSeed
    rw [if_neg hne]
  have hfr : xsFromRng (sourceWordsOfBytes seed) =
      some ⟨le_read_u32 seed 0, le_read_u32 seed 4,
            le_read_u32 seed 8, le_read_u32 seed 12⟩ := by
    simp only [sourceWordsOfBytes, xsFromRng]
    rw [if_pos htuple]
  refine ⟨by rw [hfr, hfs], by rw [hfs]; rfl, ?_⟩
  intro n
  rw [hfr, hfs]

/-- Witness for C6 at the concrete seed `[1, 0, ..., 0]`. -/
theorem from_seed_from_rng_agree_witness :
    FromPathsAgree (1 :: List.replicate 15 0) :=
  from_seed_from_rng_agree (1 :: List.replicate 15 0)
    (by decide) (by decide) (by decide)

/-- C7: `from_seed` fails (panics, `none`) exactly on the all-zero 16-byte
seed and succeeds on every seed with a non-zero byte; on success the state is
exactly the little-endian reading of the given bytes, never a perturbed
variant. -/
theorem from_seed_fails_iff_all_zero :
    (∀ seed : List Nat, xsFromSeed seed = none ↔ ∀ b ∈ seed, b = 0) ∧
    xsFromSeed (List.replicate 16 0) = none ∧
    (∀ seed st, xsFromSeed seed = some st →
      st = ⟨le_read_u32 seed 0, le_read_u32 seed 4,
            le_read_u32 seed 8, le_read_u32 seed 12⟩) := by
  refine ⟨?_, by decide, ?_⟩
  · intro seed
    unfold xsFromSeed
    by_cases hall : seed.all (fun b => b == 0) = true
    · rw [if_pos hall]
      simp only [List.all_eq_true, beq_iff_eq] at hall
      simpa using hall
    · rw [if_neg hall]
      simp only [List.all_eq_true, beq_iff_eq] at hall
      simp [hall]
  · intro seed st h
    unfold xsFromSeed at h
    by_cases hall : seed.all (fun b => b == 0) = true
    · rw [if_pos hall] at h; cases h
    · rw [if_neg hall] at h
      exact (Option.some.injEq _ _ ▸ h).symm

/-- Witness for C7: the all-zero seed, obtained through the iff of the
theorem. -/
theorem from_seed_fails_iff_all_zero_witness :
    xsFromSeed (List.replicate 16 0) = none :=
  (from_seed_fails_iff_all_zero.1 (List.replicate 16 0)).mpr (by decide)

/-- C8: on every valid (non-all-zero) 16-byte seed, `from_seed` reconstructs
`x, y, z, w` from the four consecutive 4-byte groups at offsets 0, 4, 8, 12,
each interpreted least-significant-byte-first. -/
theorem from_seed_reads_le_groups :
    ∀ seed : List Nat, seed.length = 16 → (∃ b ∈ seed, b ≠ 0) →
      xsFromSeed seed = some
        ⟨seed.getD 0 0 + 2 ^ 8 * seed.getD 1 0 +
           2 ^ 16 * seed.getD 2 0 + 2 ^ 24 * seed.getD 3 0,
         seed.getD 4 0 + 2 ^ 8 * seed.getD 5 0 +
           2 ^ 16 * seed.getD 6 0 + 2 ^ 24 * seed.getD 7 0,
         seed.getD 8 0 + 2 ^ 8 * seed.getD 9 0 +
           2 ^ 16 * seed.getD 10 0 + 2 ^ 24 * seed.getD 11 0,
         seed.getD 12 0 + 2 ^ 8 * seed.getD 13 0 +
           2 ^ 16 * seed.getD 14 0 + 2 ^ 24 * seed.getD 15 0⟩ := by
  intro seed _ hnz
  have hne : ¬(seed.all (fun b => b == 0) = true) := by
    simp only [List.all_eq_true, beq_iff_eq]
    push_neg
    exact hnz
  unfold xsFromSeed
  rw [if_neg hne]
  simp only [le_read_u32]

/-- Witness for C8 at the concrete seed `[1, 0, ..., 0]`. -/
theorem from_seed_reads_le_groups_witness :
    xsFromSeed (1 :: List.replicate 15 0) = some ⟨1, 0, 0, 0⟩ :=
  from_seed_reads_le_groups (1 :: List.replicate 15 0) (by decide) (by decide)

/-! ## The ziggurat sampling loop (`src/distributions/mod.rs`)

`fn ziggurat(rng, symmetric, x_tab, f_tab, pdf, zero_case)` loops; each
iteration draws one raw `u64`, takes the layer index from its low 8 bits and
the uniform fraction from its top 53 bits (`bits >> 11`, divided by
`SCALE = (1u64 << 53) as f64`), and accepts or rejects as claimed.  `f64`
arithmetic is modelled by exact rational arithmetic; `pdf` and `zero_case`
are the caller-supplied density and tail strategies (`zero_case` additionally
consumes the rng in the source; here it is abstracted as a function of `u`,
which is the only datum the ziggurat code itself passes to it). -/

/-- The constant `SCALE = (1u64 << 53) as f64`. -/
def SCALE : ℚ := 2 ^ 53

/-- The parameters the `ziggurat` function is called with. -/
structure ZigParams where
  symmetric : Bool
  xTab : Nat → ℚ
  fTab : Nat → ℚ
  pdf : ℚ → ℚ
  zeroCase : ℚ → ℚ

/-- One iteration of the `ziggurat` loop, given the raw drawn word `bits` and
the uniform value `u2` that `rng.gen::<f64>()` would produce in the
interpolation test: `some` is an accepted sample (a `return` in the source),
`none` continues the loop. -/
def zigguratStep (p : ZigParams) (bits : Nat) (u2 : ℚ) : Option ℚ :=
  let i : Nat := bits &&& 0xff
  let f : ℚ := ((bits >>> 11 : Nat) : ℚ) / SCALE
  let u : ℚ := if p.symmetric then 2 * f - 1 else f
  let x : ℚ := u * p.xTab i
  let testX : ℚ := if p.symmetric then |x| else x
  if testX < p.xTab (i + 1) then some x
  else if i = 0 then some (p.zeroCase u)
  else if p.fTab (i + 1) + (p.fTab i - p.fTab (i + 1)) * u2 < p.pdf x then some x
  else none

/-- The `ziggurat` loop over a list of per-iteration draws. -/
def zigguratLoop (p : ZigParams) : List (Nat × ℚ) → Option ℚ
  | [] => none
  | (bits, u2) :: rest =>
    match zigguratStep p bits u2 with
    | some x => some x
    | none => zigguratLoop p rest

/-- The behaviour claim C9 states for one iteration on the drawn word `bits`:
the layer index is the low 8 bits (`bits % 256`), the fraction comes from the
remaining high bits (`bits / 2^11`, i.e. the top 53 bits) and lies in
`[0, 1)`, the scaled `u` lies in `[-1, 1)` when symmetric and `[0, 1)`
otherwise, `x = u * x_tab[i]`, and the iteration returns / falls back / loops
by exactly the claimed case analysis; one word is drawn per iteration (the
loop recurrence). -/
def ZigStepSpec (p : ZigParams) (bits : Nat) (u2 : ℚ) : Prop :=
  let i : Nat := bits % 256
  let f : ℚ := ((bits / 2 ^ 11 : Nat) : ℚ) / SCALE
  let u : ℚ := if p.symmetric then 2 * f - 1 else f
  let x : ℚ := u * p.xTab i
  let testX : ℚ := if p.symmetric then |x| else x
  (0 ≤ f ∧ f < 1) ∧
  (p.symmetric = true → -1 ≤ u ∧ u < 1) ∧
  (p.symmetric = false → 0 ≤ u ∧ u < 1) ∧
  (testX < p.xTab (i + 1) → zigguratStep p bits u2 = some x) ∧
  (¬ testX < p.xTab (i + 1) → i = 0 →
    zigguratStep p bits u2 = some (p.zeroCase u)) ∧
  (¬ testX < p.xTab (i + 1) → i ≠ 0 →
    (p.fTab (i + 1) + (p.fTab i - p.fTab (i + 1)) * u2 < p.pdf x →
      zigguratStep p bits u2 = some x) ∧
    (¬ p.fTab (i + 1) + (p.fTab i - p.fTab (i + 1)) * u2 < p.pdf x →
      zigguratStep p bits u2 = none)) ∧
  (∀ rest, zigguratLoop p ((bits, u2) :: rest) =
    match zigguratStep p bits u2 with
    | some x => some x
    | none => zigguratLoop p rest)

/-- C9: each iteration of the ziggurat loop follows exactly the case analysis
of the claim (see `ZigStepSpec`), for every parameter set, every raw 64-bit
word and every interpolation draw. -/
theorem ziggurat_step_follows_spec :
    ∀ (p : ZigParams) (bits : Nat) (u2 : ℚ), bits < 2 ^ 64 →
      ZigStepSpec p bits u2 := by
  intro p bits u2 hbits
  have hi : bits &&& 0xff = bits % 256 := by
    have h := Nat.and_pow_two_sub_one_eq_mod bits 8
    norm_num at h
    exact h
  have hs : bits >>> 11 = bits / 2 ^ 11 := Nat.shiftRight_eq_div_pow bits 11
  have hdiv : bits / 2 ^ 11 < 2 ^ 53 := by
    rw [Nat.div_lt_iff_lt_mul (by norm_num)]
    calc bits < 2 ^ 64 := hbits
      _ = 2 ^ 53 * 2 ^ 11 := by norm_num
  have hf0 : (0 : ℚ) ≤ ((bits / 2 ^ 11 : Nat) : ℚ) / SCALE := by
    apply div_nonneg (by positivity)
    norm_num [SCALE]
  have hf1 : ((bits / 2 ^ 11 : Nat) : ℚ) / SCALE < 1 := by
    rw [div_lt_one (by norm_num [SCALE])]
    rw [SCALE]
    calc ((bits / 2 ^ 11 : Nat) : ℚ) < ((2 ^ 53 : Nat) : ℚ) := by
          exact_mod_cast hdiv
      _ = 2 ^ 53 := by norm_num
  dsimp only [ZigStepSpec]
  refine ⟨⟨hf0, hf1⟩, ?_, ?_, ?_, ?_, ?_, ?_⟩
  · intro hsym
    rw [if_pos hsym]
    constructor <;> linarith
  · intro hsym
    rw [if_neg (by simp [hsym])]
    exact ⟨hf0, hf1⟩
  · intro hlt
    simp only [zigguratStep, hi, hs]
    rw [if_pos hlt]
  · intro hge h0
    simp only [zigguratStep, hi, hs]
    rw [if_neg hge, if_pos h0]
  · intro hge h0
    constructor
    · intro hacc
      simp only [zigguratStep, hi, hs]
      rw [if_neg hge, if_neg h0, if_pos hacc]
    · intro hrej
      simp only [zigguratStep, hi, hs]
      rw [if_neg hge, if_neg h0, if_neg hrej]
  · intro rest
    rfl

/-- Fixed parameters for the C9 witness. -/
def zigWitnessParams : ZigParams :=
  ⟨true, fun _ => 1, fun _ => 0, fun _ => 0, fun u => u⟩

/-- Witness for C9 at `bits = 0`, `u2 = 0`. -/
theorem ziggurat_step_follows_spec_witness :
    ZigStepSpec zigWitnessParams 0 0 :=
  ziggurat_step_follows_spec zigWitnessParams 0 0 (by norm_num)

/-! ## ChaCha block function (`rand_chacha/src/guts.rs`)

`ChaCha` holds three 128-bit vectors `b` (key low), `c` (key high) and `d`
(64-bit block position in lanes 0 and 1, nonce in lanes 2 and 3), each of
four `u32` lanes.  `refill4` produces four blocks of output.  The SIMD
`u32x4x4` operations of `refill_wide_impl` act lanewise, so the wide state is
embedded as four independent `State<u32x4>` copies, one per output block.
The shuffle semantics (`shuffle_lane_words3012` maps `[x0,x1,x2,x3]` to
`[x3,x0,x1,x2]`, etc.) are those of the external `ppv_lite86` crate. -/

/-- A 128-bit vector of four `u32` lanes (`vec128_storage` / `u32x4`). -/
structure V128 where
  w0 : Nat
  w1 : Nat
  w2 : Nat
  w3 : Nat
deriving DecidableEq

/-- The `ChaCha` core state: `b`, `c` (key) and `d` (position/nonce). -/
structure ChaChaState where
  b : V128
  c : V128
  d : V128
deriving DecidableEq

/-- The `State<V>` record of the round function. -/
structure QState where
  a : V128
  b : V128
  c : V128
  d : V128

/-- Wrapping `u32` addition. -/
def add32 (a b : Nat) : Nat := (a + b) % U32MOD

/-- Lanewise wrapping addition (`ArithOps` `+`). -/
def addv (x y : V128) : V128 :=
  ⟨add32 x.w0 y.w0, add32 x.w1 y.w1, add32 x.w2 y.w2, add32 x.w3 y.w3⟩

/-- Lanewise xor (`BitOps32` `^`). -/
def xorv (x y : V128) : V128 :=
  ⟨Nat.xor x.w0 y.w0, Nat.xor x.w1 y.w1, Nat.xor x.w2 y.w2, Nat.xor x.w3 y.w3⟩

/-- 32-bit rotate right by `r` (each input lane is a `u32`). -/
def rotr32 (x r : Nat) : Nat :=
  let v := x % U32MOD
  (v >>> r) ||| ((v <<< (32 - r)) % U32MOD)

/-- Lanewise rotate right (`rotate_each_word_rightN`). -/
def rotrv (x : V128) (r : Nat) : V128 :=
  ⟨rotr32 x.w0 r, rotr32 x.w1 r, rotr32 x.w2 r, rotr32 x.w3 r⟩

/-- Model of `fn round` of `guts.rs`. -/
def chachaRound (x : QState) : QState :=
  let a := addv x.a x.b
  let d := rotrv (xorv x.d a) 16
  let c := addv x.c d
  let b := rotrv (xorv x.b c) 20
  let a2 := addv a b
  let d2 := rotrv (xorv d a2) 24
  let c2 := addv c d2
  let b2 := rotrv (xorv b c2) 25
  ⟨a2, b2, c2, d2⟩

/-- The `ppv_lite86` lane-word shuffle `[x0,x1,x2,x3] ↦ [x1,x2,x3,x0]`. -/
def shuffle1230 (v : V128) : V128 := ⟨v.w1, v.w2, v.w3, v.w0⟩

/-- The `ppv_lite86` lane-word shuffle `[x0,x1,x2,x3] ↦ [x2,x3,x0,x1]`. -/
def shuffle2301 (v : V128) : V128 := ⟨v.w2, v.w3, v.w0, v.w1⟩

/-- The `ppv_lite86` lane-word shuffle `[x0,x1,x2,x3] ↦ [x3,x0,x1,x2]`. -/
def shuffle3012 (v : V128) : V128 := ⟨v.w3, v.w0, v.w1, v.w2⟩

/-- Model of `fn diagonalize` of `guts.rs`. -/
def diagonalize (x : QState) : QState :=
  ⟨x.a, shuffle3012 x.b, shuffle2301 x.c, shuffle1230 x.d⟩

/-- Model of `fn undiagonalize` of `guts.rs`. -/
def undiagonalize (x : QState) : QState :=
  ⟨x.a, shuffle1230 x.b, shuffle2301 x.c, shuffle3012 x.d⟩

/-- One iteration of the `for _ in 0..drounds` loop:
`x = round(x); x = undiagonalize(round(diagonalize(x)))`. -/
def doubleRound (x : QState) : QState :=
  undiagonalize (chachaRound (diagonalize (chachaRound x)))

/-- Iterate the round loop `drounds` times. -/
def roundsIter : Nat → QState → QState
  | 0, x => x
  | n + 1, x => roundsIter n (doubleRound x)

/-- The ChaCha constant `k = [0x6170_7865, 0x3320_646e, 0x7962_2d32, 0x6b20_6574]`. -/
def kVec : V128 := ⟨0x61707865, 0x3320646e, 0x79622d32, 0x6b206574⟩

/-- Model of `ChaCha::pos64`: the 64-bit block position held in the low two lanes of
`d` (`(d.extract(1) << 32) | d.extract(0)`). -/
def pos64 (d : V128) : Nat := (d.w1 <<< 32) ||| d.w0

/-- Model of `d0.insert((pos >> 32) as u32, 1).insert(pos as u32, 0)`: store a 64-bit
position into the low two lanes, keeping the nonce lanes 2 and 3. -/
def setPos (d : V128) (pos : Nat) : V128 :=
  ⟨pos % U32MOD, (pos >>> 32) % U32MOD, d.w2, d.w3⟩

/-- Model of `refill_wide_impl` (the body of `ChaCha::refill4`): produce 4 blocks of
output — per block, the four output vectors `a + k`, `b + sb`, `c + sc`,
`d + sd` after `drounds` double rounds — and advance the state by setting
`d` to the position incremented by 4 (wrapping at `2^64`). -/
def refill4 (st : ChaChaState) (drounds : Nat) : List V128 × ChaChaState :=
  let pos := pos64 st.d
  let d0 := st.d
  let d1 := setPos d0 ((pos + 1) % U64MOD)
  let d2 := setPos d0 ((pos + 2) % U64MOD)
  let d3 := setPos d0 ((pos + 3) % U64MOD)
  let d4 := setPos d0 ((pos + 4) % U64MOD)
  let lane := fun (dl : V128) => roundsIter drounds ⟨kVec, st.b, st.c, dl⟩
  let outLane := fun (x : QState) (sd : V128) =>
    [addv x.a kVec, addv x.b st.b, addv x.c st.c, addv x.d sd]
  (outLane (lane d0) d0 ++ outLane (lane d1) d1 ++
     outLane (lane d2) d2 ++ outLane (lane d3) d3,
   { st with d := d4 })

/-- Model of `ChaCha::stream64_eq`: equal in all parameters except the current 64-bit
position — keys `b`, `c` and nonce lanes `d[3]`, `d[2]` agree. -/
def stream64_eq (a rhs : ChaChaState) : Bool :=
  a.b == rhs.b && a.c == rhs.c && a.d.w3 == rhs.d.w3 && a.d.w2 == rhs.d.w2

/-- All lanes of the state are `u32` values. -/
def WfState (st : ChaChaState) : Prop :=
  st.b.w0 < U32MOD ∧ st.b.w1 < U32MOD ∧ st.b.w2 < U32MOD ∧ st.b.w3 < U32MOD ∧
  st.c.w0 < U32MOD ∧ st.c.w1 < U32MOD ∧ st.c.w2 < U32MOD ∧ st.c.w3 < U32MOD ∧
  st.d.w0 < U32MOD ∧ st.d.w1 < U32MOD ∧ st.d.w2 < U32MOD ∧ st.d.w3 < U32MOD

/-- The frame property claim C10 states for `refill4`: the 64-bit position
advances by exactly 4 modulo `2^64`, while the key fields `b`, `c` and the
nonce lanes `d[2]`, `d[3]` are unchanged, so the pre- and post-states are
`stream64_eq`. -/
def Refill4Frame (st : ChaChaState) (drounds : Nat) : Prop :=
  pos64 (refill4 st drounds).2.d = (pos64 st.d + 4) % U64MOD ∧
  (refill4 st drounds).2.b = st.b ∧
  (refill4 st drounds).2.c = st.c ∧
  (refill4 st drounds).2.d.w2 = st.d.w2 ∧
  (refill4 st drounds).2.d.w3 = st.d.w3 ∧
  stream64_eq st (refill4 st drounds).2 = true

/-- Splitting a `u64` as `(high << 32) ||| low` with `low < 2^32` is the same
as `high * 2^32 + low`. -/
theorem shiftLeft_or_eq (hi lo : Nat) (hlo : lo < U32MOD) :
    (hi <<< 32) ||| lo = 2 ^ 32 * hi + lo := by
  rw [Nat.shiftLeft_eq, Nat.mul_comm hi (2 ^ 32)]
  exact (Nat.mul_add_lt_is_or hlo hi).symm

/-- Applying `pos64` after `setPos` recovers the stored position (for positions below
`2^64`). -/
theorem pos64_setPos (d : V128) (pos : Nat) (h : pos < U64MOD) :
    pos64 (setPos d pos) = pos := by
  unfold pos64 setPos
  simp only
  rw [shiftLeft_or_eq _ _ (Nat.mod_lt _ (by norm_num [U32MOD]))]
  have h32 : pos >>> 32 = pos / 2 ^ 32 := Nat.shiftRight_eq_div_pow pos 32
  have hdivlt : pos / 2 ^ 32 < 2 ^ 32 := by
    rw [Nat.div_lt_iff_lt_mul (by norm_num)]
    calc pos < U64MOD := h
      _ = 2 ^ 32 * 2 ^ 32 := by norm_num [U64MOD]
  rw [h32, Nat.mod_eq_of_lt (by simpa [U32MOD] using hdivlt)]
  have := Nat.div_add_mod pos (2 ^ 32)
  simp only [U32MOD]
  omega

/-- C10: for every ChaCha state with `u32` lanes and every round count,
`refill4` increments the 64-bit block position by exactly 4 modulo `2^64`
and leaves `b`, `c`, `d[2]`, `d[3]` unchanged; the pre- and post-states are
`stream64_eq`. -/
theorem refill4_frame :
    ∀ (st : ChaChaState) (drounds : Nat), WfState st →
      Refill4Frame st drounds := by
  intro st drounds _
  have hmod : (pos64 st.d + 4) % U64MOD < U64MOD :=
    Nat.mod_lt _ (by norm_num [U64MOD])
  refine ⟨?_, rfl, rfl, rfl, rfl, ?_⟩
  · exact pos64_setPos st.d _ hmod
  · simp [stream64_eq, refill4, setPos]

/-- Witness for C10 at a concrete state and `drounds = 10` (ChaCha20). -/
theorem refill4_frame_witness :
    Refill4Frame ⟨⟨1, 2, 3, 4⟩, ⟨5, 6, 7, 8⟩, ⟨9, 10, 11, 12⟩⟩ 10 :=
  refill4_frame ⟨⟨1, 2, 3, 4⟩, ⟨5, 6, 7, 8⟩, ⟨9, 10, 11, 12⟩⟩ 10
    (by norm_num [WfState, U32MOD])

end RandVerify
